import Mathlib

/-!
Verification development for the polyhedron-partition engine of the `slabbe`
repository (`slabbe/polyhedron_partition.py`).

The embedding is executable: the external polytope primitives (exact convex
polytopes over the rationals, with intersection, volume, inclusion) are
modelled concretely for the two-dimensional rational case used throughout the
source's examples, and the partition/induction code is translated from the
Python source operation by operation.

Exact arithmetic is provided by a normalized fraction type `Q` (numerator an
integer, denominator a positive natural, in lowest terms) so that every
definition evaluates inside the kernel.
-/

deriving instance DecidableEq for Except

namespace Slabbe

/-- Exact rational scalar: numerator and (intended positive) denominator.
All values produced by the arithmetic below are normalized (lowest terms,
positive denominator), so structural equality coincides with equality of
rational values. -/
structure Q where
  num : Int
  den : Nat
deriving DecidableEq, Repr

/-- Build the normalized fraction n/d (sign moved to the numerator, divided
by the gcd); division by zero yields 0, matching no reachable use. -/
def qmk (n d : Int) : Q :=
  if d = 0 then ⟨0, 1⟩
  else
    let n' : Int := if d < 0 then -n else n
    let d' : Nat := d.natAbs
    let g : Nat := n'.natAbs.gcd d'
    ⟨n'.ediv g, d' / g⟩

def Q.add (x y : Q) : Q := qmk (x.num * y.den + y.num * x.den) (x.den * y.den)

def Q.sub (x y : Q) : Q := qmk (x.num * y.den - y.num * x.den) (x.den * y.den)

def Q.mul (x y : Q) : Q := qmk (x.num * y.num) (x.den * y.den)

def Q.div (x y : Q) : Q := qmk (x.num * y.den) (x.den * y.num)

def Q.neg (x : Q) : Q := ⟨-x.num, x.den⟩

instance : Add Q := ⟨Q.add⟩
instance : Sub Q := ⟨Q.sub⟩
instance : Mul Q := ⟨Q.mul⟩
instance : Div Q := ⟨Q.div⟩
instance : Neg Q := ⟨Q.neg⟩
instance (n : Nat) : OfNat Q n := ⟨⟨Int.ofNat n, 1⟩⟩

/-- Order on fractions by cross multiplication (denominators are positive
for all normalized values). -/
instance : LT Q := ⟨fun x y => x.num * (y.den : Int) < y.num * (x.den : Int)⟩

instance : LE Q := ⟨fun x y => x.num * (y.den : Int) ≤ y.num * (x.den : Int)⟩

instance (x y : Q) : Decidable (x < y) :=
  inferInstanceAs (Decidable (x.num * (y.den : Int) < y.num * (x.den : Int)))

instance (x y : Q) : Decidable (x ≤ y) :=
  inferInstanceAs (Decidable (x.num * (y.den : Int) ≤ y.num * (x.den : Int)))

/-- A vertex of a polytope in the plane. -/
abbrev Pt := Q × Q

/-- Value of the affine form `t + a*x + b*y` at a point; the Sage inequality
list `[t, a, b]` denotes the half-plane where this value is nonnegative. -/
def evalIneq (t a b : Q) (v : Pt) : Q := t + a * v.1 + b * v.2

/-- Successive cyclic pairs of a vertex list: the directed edges of the
polygon it describes. -/
def cyclicPairs (vs : List Pt) : List (Pt × Pt) :=
  match vs with
  | [] => []
  | v :: rest => List.zip (v :: rest) (rest ++ [v])

/-- Point where the segment from `v` to `w` meets the boundary line of the
half-plane `t + a*x + b*y ≥ 0` (used only when the segment crosses it). -/
def crossPoint (t a b : Q) (v w : Pt) : Pt :=
  let dv := evalIneq t a b v
  let dw := evalIneq t a b w
  let s := dv / (dv - dw)
  (v.1 + s * (w.1 - v.1), v.2 + s * (w.2 - v.2))

/-- One step of Sutherland–Hodgman clipping: contribution of the directed
edge from `v` to `w` to the clip of the polygon by `t + a*x + b*y ≥ 0`. -/
def clipEdgePair (t a b : Q) (v w : Pt) : List Pt :=
  let dv := evalIneq t a b v
  let dw := evalIneq t a b w
  if 0 ≤ dw then
    (if 0 ≤ dv then [w] else [crossPoint t a b v w, w])
  else
    (if 0 ≤ dv then [crossPoint t a b v w] else [])

/-- Clip a convex polygon (counterclockwise vertex list) by one closed
half-plane. -/
def clipOnce (t a b : Q) (vs : List Pt) : List Pt :=
  (cyclicPairs vs).flatMap (fun vw => clipEdgePair t a b vw.1 vw.2)

/-- Inequality `[t, a, b]` describing the closed half-plane to the left of
the directed edge from `v` to `w` (the interior side for a counterclockwise
polygon). -/
def edgeIneq (v w : Pt) : Q × Q × Q :=
  ((w.2 - v.2) * v.1 - (w.1 - v.1) * v.2, -(w.2 - v.2), w.1 - v.1)

/-- Interior-side inequalities of all edges of a polygon. -/
def polyEdgeIneqs (vs : List Pt) : List (Q × Q × Q) :=
  (cyclicPairs vs).map (fun vw => edgeIneq vw.1 vw.2)

/-- Clip a polygon by a list of half-plane inequalities in order. -/
def clipByIneqs (cs : List (Q × Q × Q)) (vs : List Pt) : List Pt :=
  cs.foldl (fun acc c => clipOnce c.1 c.2.1 c.2.2 acc) vs

/-- Twice-signed-area accumulation of the shoelace formula. -/
def shoelace (vs : List Pt) : Q :=
  (((cyclicPairs vs).map (fun vw => vw.1.1 * vw.2.2 - vw.2.1 * vw.1.2)).foldr
    Q.add 0) / 2

/-- Whether a point satisfies every interior-side edge inequality of a
convex counterclockwise polygon, i.e. lies in the polygon. -/
def insidePt (vs : List Pt) (u : Pt) : Bool :=
  (polyEdgeIneqs vs).all (fun c => decide (0 ≤ evalIneq c.1 c.2.1 c.2.2 u))

/-- The external polytope primitive, in the planar rational case the source
exercises: either a bounded convex polygon given by its counterclockwise
vertex list (`Polyhedron(vertices)`), or the half-plane `t + a*x + b*y ≥ 0`
(`Polyhedron(ieqs=[[t,a,b]])`). -/
inductive Poly where
  | bounded (vertices : List Pt)
  | halfplane (t a b : Q)
deriving DecidableEq, Repr

/-- Vertex list of a polytope (`.vertices()`); the half-plane case is never
asked for its vertices by the modelled flows. -/
def Poly.verts : Poly → List Pt
  | .bounded vs => vs
  | .halfplane _ _ _ => []

/-- Volume (area) of a polytope (`.volume()`): shoelace area for a bounded
polygon; the unbounded half-plane case never has its volume taken by the
modelled flows. -/
def Poly.volume : Poly → Q
  | .bounded vs => shoelace vs
  | .halfplane _ _ _ => 0

/-- Intersection of two polytopes (`.intersection(other)`), by clipping the
bounded operand with the half-planes of the other. Two half-planes never
meet in the modelled flows. -/
def Poly.intersection : Poly → Poly → Poly
  | .bounded vs, .bounded ws => .bounded (clipByIneqs (polyEdgeIneqs ws) vs)
  | .bounded vs, .halfplane t a b => .bounded (clipOnce t a b vs)
  | .halfplane t a b, .bounded ws => .bounded (clipOnce t a b ws)
  | .halfplane t a b, .halfplane _ _ _ => .halfplane t a b

/-- Containment test between polytopes (Sage `p <= q`): a bounded convex
polygon is contained in a convex set iff all its vertices are. -/
def Poly.subsetOf : Poly → Poly → Bool
  | .bounded vs, .bounded ws => vs.all (insidePt ws)
  | .bounded vs, .halfplane t a b => vs.all (fun u => decide (0 ≤ evalIneq t a b u))
  | .halfplane _ _ _, .bounded _ => false
  | .halfplane t a b, .halfplane s c d => decide ((t, a, b) = (s, c, d))

/-- Geometric equality of polytopes (Sage `p == q`): mutual containment. -/
def Poly.eqv (p q : Poly) : Bool := p.subsetOf q && q.subsetOf p

/-- Base rings appearing in the modelled examples. -/
inductive BRing where
  | QQ
  | ZZ
deriving DecidableEq, Repr

/-- Base ring of a polytope (`.base_ring()`): the modelled vertices are
rational. -/
def Poly.base_ring : Poly → BRing := fun _ => BRing.QQ

/-- A polyhedron partition: the dict `self._atoms` as an association list in
insertion order (keys are the integers used throughout the source's
examples), together with `self._base_ring`. -/
structure PPart where
  atoms : List (Nat × Poly)
  ring : Option BRing
deriving DecidableEq, Repr

/-- The possible shapes of the `atoms` constructor argument: a list, a dict,
or any other value. -/
inductive AtomsInput where
  | ofList (L : List Poly)
  | ofDict (d : List (Nat × Poly))
  | otherValue
deriving DecidableEq, Repr

/-- Error raised by the constructor: `atoms` is neither a list nor a dict. -/
inductive PartErr where
  | typeErr
deriving DecidableEq, Repr

/-- Base-ring computation of `PolyhedronPartition.__init__`: an explicit
`base_ring` is kept; otherwise it is read off the first atom; for an empty
partition the source line `base_ring == ZZ` is an equality test whose result
is discarded, so nothing is assigned and the ring stays `None`. -/
def initBaseRing (atoms : List (Nat × Poly)) (base_ring : Option BRing) :
    Option BRing :=
  match base_ring with
  | some r => some r
  | none =>
    match atoms with
    | [] => none
    | (_, p) :: _ => some p.base_ring

/-- The constructor `PolyhedronPartition(atoms, base_ring)`: a plain list is
keyed by `enumerate` (dense integer keys `0..n-1` in order), a dict keeps its
keys, anything else raises `TypeError`. -/
def PolyhedronPartition (input : AtomsInput) (base_ring : Option BRing) :
    Except PartErr PPart :=
  match input with
  | .ofList L => .ok ⟨L.enum, initBaseRing L.enum base_ring⟩
  | .ofDict d => .ok ⟨d, initBaseRing d base_ring⟩
  | .otherValue => .error .typeErr

/-- Internal constructor call `PolyhedronPartition(L)` on a list, which never
raises. -/
def mkFromList (L : List Poly) : PPart := ⟨L.enum, initBaseRing L.enum none⟩

/-- Internal constructor call `PolyhedronPartition(d)` on a dict, which never
raises. -/
def mkFromDict (d : List (Nat × Poly)) : PPart := ⟨d, initBaseRing d none⟩

/-- The atom values `self.atoms()` in iteration order. -/
def PPart.values (P : PPart) : List Poly := P.atoms.map (fun kp => kp.2)

/-- The key list of the partition, in iteration order. -/
def PPart.keys (P : PPart) : List Nat := P.atoms.map (fun kp => kp.1)

/-- Dict access `self[k]` (total model; every modelled call uses a present
key). -/
def PPart.getAtom (P : PPart) (k : Nat) : Poly :=
  match P.atoms.find? (fun kp => kp.1 = k) with
  | some kp => kp.2
  | none => .bounded []

/-- Membership `p in self` (`__contains__`): membership of `p` in the set of
atoms, under geometric equality of polyhedra. -/
def PPart.mem (P : PPart) (p : Poly) : Bool := P.values.any (fun q => Poly.eqv p q)

/-- Partition equality (`__eq__`): the two sets of atoms are equal, under
geometric equality of polyhedra; the keys play no role. -/
def PPart.eqP (P Q' : PPart) : Bool :=
  P.values.all (fun p => Q'.mem p) && Q'.values.all (fun q => P.mem q)

/-- The `ValueError`s of `PolyhedronPartition.code`: the polyhedron (whose
vertices the message prints) lies in no atom, or in more than one atom (whose
keys the message prints). -/
inductive CodeErr where
  | noAtom (vs : List Pt)
  | multiAtom (vs : List Pt) (L : List Nat)
deriving DecidableEq, Repr

/-- The method `code(p)`: the key of the unique atom containing `p`, an
error if no atom or more than one atom contains it. -/
def PPart.code (P : PPart) (p : Poly) : Except CodeErr Nat :=
  let L := P.atoms.filterMap (fun kp => if p.subsetOf kp.2 then some kp.1 else none)
  match L with
  | [i] => .ok i
  | [] => .error (.noAtom p.verts)
  | _ => .error (.multiAtom p.verts L)

/-- The `ValueError` of `is_pairwise_disjoint`: two atoms, reported with
their keys and vertex sets, have an intersection of positive volume (also
reported). -/
structure DisjErr where
  i : Nat
  vi : List Pt
  j : Nat
  vj : List Pt
  vol : Q
deriving DecidableEq, Repr

/-- Ordered pairs of distinct keys, in the emission order of
`itertools.permutations(keys, 2)` (the dict's keys are distinct). -/
def keyPairs (xs : List Nat) : List (Nat × Nat) :=
  xs.flatMap (fun a => (xs.filter (fun b => b ≠ a)).map (fun b => (a, b)))

/-- Loop body of `is_pairwise_disjoint`: scan the ordered pairs of distinct
keys and raise on the first pair whose atoms meet with positive volume. -/
def disjLoop (P : PPart) : List (Nat × Nat) → Except DisjErr Bool
  | [] => .ok true
  | (i, j) :: rest =>
    let p := P.getAtom i
    let q := P.getAtom j
    let volume := (p.intersection q).volume
    if 0 < volume then .error ⟨i, p.verts, j, q.verts, volume⟩
    else disjLoop P rest

/-- The method `is_pairwise_disjoint()`: `True`, or a `ValueError` for the
first ordered pair of distinct keys whose atoms overlap with positive
volume. -/
def PPart.is_pairwise_disjoint (P : PPart) : Except DisjErr Bool :=
  disjLoop P (keyPairs P.keys)

/-- The method `refinement(other)`: all pairwise intersections of an atom of
`self` with an atom of `other`, in product order, keeping only those of
positive volume, repackaged as a partition with dense integer keys. -/
def PPart.refinement (P other : PPart) : PPart :=
  let L := (P.values.flatMap (fun p => other.values.map (fun q => (p, q)))).filterMap
    (fun pq =>
      let p_q := pq.1.intersection pq.2
      if 0 < p_q.volume then some p_q else none)
  mkFromList L

/-- The method `apply_transformation(trans)`: every atom is replaced by its
image, under the same key; the `assert p.volume() == trans_p.volume()` of the
source makes a non-volume-preserving image a fatal failure, modelled by
`none`. -/
def PPart.apply_transformation (P : PPart) (trans : Poly → Poly) : Option PPart :=
  if P.atoms.all (fun kp => (trans kp.2).volume = kp.2.volume) then
    some (mkFromDict (P.atoms.map (fun kp => (kp.1, trans kp.2))))
  else none

/-- The function `rotation_mod(i, angle, mod, base_ring)`: translation of
coordinate `i` by `angle` modulo `mod`, acting on a polyhedron through its
vertices. -/
def rotation_mod (i : Nat) (angle mod : Q) (base_ring : BRing) : Poly → Poly := fun p =>
  let coord : Pt → Q := fun v => if i = 0 then v.1 else v.2
  let shift : Q → Pt → Pt := fun d v =>
    if i = 0 then (v.1 + d, v.2) else (v.1, v.2 + d)
  if (p.verts.all (fun v => coord v ≤ mod - angle)) then
    .bounded (p.verts.map (shift angle))
  else
    .bounded (p.verts.map (shift (angle - mod)))

/-- The function `find_unused_key(d, sequence)`: the first element of the
sequence that is not a key of `d`; `None` when the sequence is exhausted. -/
def find_unused_key (d : List Nat) (sequence : List Nat) : Option Nat :=
  sequence.find? (fun a => decide (a ∉ d))

/-- The call `find_unused_key(d, itertools.count())` of the source: among the
first `len(d) + 1` naturals one is certainly unused, so this finite prefix of
`itertools.count()` returns the same first unused key. -/
def fresh_key (d : List Nat) : Nat :=
  (find_unused_key d (List.range (d.length + 1))).getD 0

/-- First loop of `keys_permutation`: atoms of `self` found in `other` are
sent to `other`'s code for them (an error of `other.code` propagates); the
remaining `(key, atom)` pairs are collected, in order, for the second loop. -/
def kpMatchLoop (other : PPart) :
    List (Nat × Poly) → Except CodeErr (List (Nat × Nat) × List (Nat × Poly))
  | [] => .ok ([], [])
  | (k, p) :: rest =>
    if other.mem p then
      match other.code p with
      | .ok other_key =>
        match kpMatchLoop other rest with
        | .ok (d, ab) => .ok ((k, other_key) :: d, ab)
        | .error e => .error e
      | .error e => .error e
    else
      match kpMatchLoop other rest with
      | .ok (d, ab) => .ok (d, (k, p) :: ab)
      | .error e => .error e

/-- Second loop of `keys_permutation`: each leftover key receives the first
unused integer key, which is then added to the forbidden set. -/
def kpFreshLoop : List Nat → List (Nat × Poly) → List (Nat × Nat)
  | _, [] => []
  | forbidden, (k, _) :: rest =>
    let new_key := fresh_key forbidden
    (k, new_key) :: kpFreshLoop (forbidden ++ [new_key]) rest

/-- The method `keys_permutation(other)`: a key-renaming dict sending keys of
atoms shared with `other` to `other`'s key for that atom and the remaining
keys to fresh unused integer keys. -/
def PPart.keys_permutation (P other : PPart) : Except CodeErr (List (Nat × Nat)) :=
  match kpMatchLoop other P.atoms with
  | .ok (d, atoms_not_in_other) =>
    .ok (d ++ kpFreshLoop other.keys atoms_not_in_other)
  | .error e => .error e

/-- Failures of `induced_out_partition`: the half-space misses the partition
(`ValueError`, with the inequality), a non-volume-preserving application
(fatal `assert`), or exhaustion of the fuel that models the source's
unbounded `while` loop. -/
inductive IndErr where
  | emptyIneq (t a b : Q)
  | assertFail
  | fuelOut
deriving DecidableEq, Repr

/-- The `while len(P)` loop of `induced_out_partition`: split the transformed
remainder into the part returned to the half-space (recorded at the current
level when non-empty) and the rest, refine the rest against the original
partition, transform, and repeat. -/
def inducedLoop (self half_part other_half_part : PPart) (trans : Poly → Poly) :
    Nat → PPart → Nat → List (Nat × PPart) → Except IndErr (List (Nat × PPart))
  | 0, _, _, _ => .error .fuelOut
  | fuel + 1, P, level, ans =>
    if P.atoms.isEmpty then .ok ans
    else
      let P_returned := P.refinement half_part
      let ans' := if P_returned.atoms.isEmpty then ans else ans ++ [(level, P_returned)]
      let P1 := ((P.refinement other_half_part).refinement self)
      match P1.apply_transformation trans with
      | some P2 => inducedLoop self half_part other_half_part trans fuel P2 (level + 1) ans'
      | none => .error .assertFail

/-- The method `induced_out_partition(trans, ieq)`: refine by the half-space
`t + a*x + b*y ≥ 0` of `ieq = [t, a, b]` (an empty result is a
`ValueError`), transform once, then iterate the return-time loop; the result
maps each return time to the partition of atoms returning at that time. -/
def PPart.induced_out_partition (P : PPart) (trans : Poly → Poly)
    (t a b : Q) (fuel : Nat) : Except IndErr (List (Nat × PPart)) :=
  let half := Poly.halfplane t a b
  let half_part := mkFromList [half]
  let other_half := Poly.halfplane (-t) (-a) (-b)
  let other_half_part := mkFromList [other_half]
  let P0 := P.refinement half_part
  if P0.atoms.isEmpty then .error (.emptyIneq t a b)
  else
    match P0.apply_transformation trans with
    | some P1 => inducedLoop P half_part other_half_part trans fuel P1 1 []
    | none => .error .assertFail

/-! Concrete polyhedra of the source's documented examples. The vertex lists
are those of the docstrings, listed in counterclockwise order (Sage's
`Polyhedron` constructor is insensitive to the input order of the
vertices). -/

/-- The value `h = 1/3` of the rational-rotation example. -/
def hThird : Q := (1 : Q) / 3

/-- The triangle `p = Polyhedron([(0,h),(0,1),(h,1)])` with `h = 1/3`. -/
def atomP : Poly := .bounded [(0, hThird), (hThird, 1), (0, 1)]

/-- The quadrilateral `q = Polyhedron([(0,0),(0,h),(h,1),(h,0)])`. -/
def atomQ : Poly := .bounded [(0, 0), (hThird, 0), (hThird, 1), (0, hThird)]

/-- The quadrilateral `r = Polyhedron([(h,1),(1,1),(1,h),(h,0)])`. -/
def atomR : Poly := .bounded [(hThird, 0), (1, hThird), (1, 1), (hThird, 1)]

/-- The triangle `s = Polyhedron([(h,0),(1,0),(1,h)])`. -/
def atomS : Poly := .bounded [(hThird, 0), (1, 0), (1, hThird)]

/-- The 4-atom partition `PolyhedronPartition({0:p, 1:q, 2:r, 3:s})` of the
unit square. -/
def P4 : PPart := mkFromDict [(0, atomP), (1, atomQ), (2, atomR), (3, atomS)]

/-- The translation-mod-1 map `u = rotation_mod(0, 1/3, 1, QQ)`. -/
def u13 : Poly → Poly := rotation_mod 0 ((1 : Q) / 3) 1 .QQ

/-- The translation-mod-1 map `rotation_mod(0, 2/3, 1, QQ)`, the inverse of
`u13`. -/
def u23 : Poly → Poly := rotation_mod 0 ((2 : Q) / 3) 1 .QQ

/-- The value `h = 1/2` of the `keys_permutation` example. -/
def hHalf : Q := (1 : Q) / 2

/-- The triangle `p = Polyhedron([(0,h),(0,1),(h,1)])` with `h = 1/2`. -/
def atomPB : Poly := .bounded [(0, hHalf), (hHalf, 1), (0, 1)]

/-- The hexagon `q = Polyhedron([(0,0),(0,h),(h,1),(1,1),(1,h),(h,0)])`. -/
def atomQB : Poly :=
  .bounded [(0, 0), (hHalf, 0), (1, hHalf), (1, 1), (hHalf, 1), (0, hHalf)]

/-- The triangle `r = Polyhedron([(h,0),(1,0),(1,h)])` with `h = 1/2`. -/
def atomRB : Poly := .bounded [(hHalf, 0), (1, 0), (1, hHalf)]

/-- The partition `P = PolyhedronPartition({4:p, 1:q, 2:r})` of the
`keys_permutation` docstring. -/
def PB : PPart := mkFromDict [(4, atomPB), (1, atomQB), (2, atomRB)]

/-- The partition `Q = PolyhedronPartition({0:p, 5:q})` of the
`keys_permutation` docstring. -/
def QB : PPart := mkFromDict [(0, atomPB), (5, atomQB)]

/-- The unit square as a single polyhedron. -/
def sqUnit : Poly := .bounded [(0, 0), (1, 0), (1, 1), (0, 1)]

/-- The unit square translated by `(1/2, 0)`. -/
def sqShift : Poly :=
  .bounded [(hHalf, 0), ((3 : Q) / 2, 0), ((3 : Q) / 2, 1), (hHalf, 1)]

/-- A partition whose two atoms overlap on a strip of positive volume. -/
def Pover : PPart := mkFromDict [(0, sqUnit), (1, sqShift)]

/-- A degenerate zero-volume atom: the horizontal segment from `(1/4, 1/4)`
to `(3/4, 1/4)`, inside the unit square. -/
def segAtom : Poly := .bounded [((1 : Q) / 4, (1 : Q) / 4), ((3 : Q) / 4, (1 : Q) / 4)]

/-- A pairwise-disjoint partition (the segment meets the square with volume
zero) in which the segment is contained in two atoms at once. -/
def Pdeg : PPart := mkFromDict [(0, sqUnit), (1, segAtom)]

/-! Helper lemmas shared by the claim theorems. -/

/-- Geometric polyhedron equality is symmetric. -/
theorem Poly.eqv_symm (p q : Poly) : Poly.eqv p q = Poly.eqv q p := by
  unfold Poly.eqv
  exact Bool.and_comm _ _

/-- The atom of an entry of the association list is a value of the
partition. -/
theorem mem_values {P : PPart} {kp : Nat × Poly} (h : kp ∈ P.atoms) :
    kp.2 ∈ P.values :=
  List.mem_map_of_mem _ h

/-- A polyhedron geometrically equal to some atom is a member of the
partition. -/
theorem PPart.mem_of_eqv {P : PPart} {p : Poly} (q : Poly) (hq : q ∈ P.values)
    (h : Poly.eqv p q = true) : P.mem p = true := by
  unfold PPart.mem
  rw [List.any_eq_true]
  exact ⟨q, hq, h⟩

/-- The scan underlying `is_pairwise_disjoint` answers `True` exactly when
no scanned pair overlaps with positive volume. -/
theorem disjLoop_ok_iff (P : PPart) (l : List (Nat × Nat)) :
    disjLoop P l = .ok true ↔ ∀ ij ∈ l,
      ¬ 0 < ((P.getAtom ij.1).intersection (P.getAtom ij.2)).volume := by
  induction l with
  | nil => simp [disjLoop]
  | cons ij rest ih =>
    obtain ⟨i, j⟩ := ij
    by_cases hv : 0 < ((P.getAtom i).intersection (P.getAtom j)).volume
    · simp [disjLoop, hv]
    · simp [disjLoop, hv, ih]

/-- The scan underlying `is_pairwise_disjoint` never returns `False`. -/
theorem disjLoop_ok_true (P : PPart) (l : List (Nat × Nat)) (br : Bool)
    (h : disjLoop P l = .ok br) : br = true := by
  induction l with
  | nil =>
    unfold disjLoop at h
    exact (Except.ok.inj h).symm
  | cons ij rest ih =>
    obtain ⟨i, j⟩ := ij
    unfold disjLoop at h
    by_cases hv : 0 < ((P.getAtom i).intersection (P.getAtom j)).volume
    · rw [if_pos hv] at h
      exact absurd h (by simp)
    · rw [if_neg hv] at h
      exact ih h

/-- When the scan underlying `is_pairwise_disjoint` raises, the error
carries a scanned pair together with its vertex sets and its positive
intersection volume. -/
theorem disjLoop_error (P : PPart) (l : List (Nat × Nat)) (e : DisjErr)
    (h : disjLoop P l = .error e) :
    (e.i, e.j) ∈ l ∧ e.vi = (P.getAtom e.i).verts ∧
      e.vj = (P.getAtom e.j).verts ∧
      e.vol = ((P.getAtom e.i).intersection (P.getAtom e.j)).volume ∧
      0 < e.vol := by
  induction l with
  | nil => exact absurd h (by simp [disjLoop])
  | cons ij rest ih =>
    obtain ⟨i, j⟩ := ij
    unfold disjLoop at h
    by_cases hv : 0 < ((P.getAtom i).intersection (P.getAtom j)).volume
    · rw [if_pos hv] at h
      obtain rfl : (⟨i, (P.getAtom i).verts, j, (P.getAtom j).verts,
          ((P.getAtom i).intersection (P.getAtom j)).volume⟩ : DisjErr) = e :=
        Except.error.inj h
      exact ⟨List.mem_cons_self _ _, rfl, rfl, rfl, hv⟩
    · rw [if_neg hv] at h
      obtain ⟨hmem, h2⟩ := ih h
      exact ⟨List.mem_cons_of_mem _ hmem, h2⟩

/-- Membership in the ordered pairs of distinct keys. -/
theorem mem_keyPairs {xs : List Nat} {i j : Nat} :
    (i, j) ∈ keyPairs xs ↔ i ∈ xs ∧ j ∈ xs ∧ j ≠ i := by
  constructor
  · intro h
    rw [keyPairs, List.mem_flatMap] at h
    obtain ⟨a, ha, hm⟩ := h
    rw [List.mem_map] at hm
    obtain ⟨bv, hb, heq⟩ := hm
    obtain ⟨rfl, rfl⟩ : a = i ∧ bv = j := by
      constructor <;> [exact congrArg Prod.fst heq; exact congrArg Prod.snd heq]
    rw [List.mem_filter] at hb
    exact ⟨ha, hb.1, of_decide_eq_true hb.2⟩
  · intro ⟨hi, hj, hne⟩
    rw [keyPairs, List.mem_flatMap]
    refine ⟨i, hi, ?_⟩
    rw [List.mem_map]
    exact ⟨j, List.mem_filter.mpr ⟨hj, decide_eq_true hne⟩, rfl⟩

/-- In an association list with distinct keys, equal keys mean equal
entries. -/
theorem entry_eq_of_key_eq {l : List (Nat × Poly)}
    (h : (l.map (fun kp => kp.1)).Nodup) :
    ∀ kp ∈ l, ∀ kq ∈ l, kp.1 = kq.1 → kp = kq := by
  induction l with
  | nil =>
    intro kp h1
    exact absurd h1 (List.not_mem_nil kp)
  | cons a t ih =>
    rw [List.map_cons, List.nodup_cons] at h
    intro kp hkp kq hkq hkey
    rcases List.mem_cons.mp hkp with rfl | hkp'
    · rcases List.mem_cons.mp hkq with rfl | hkq'
      · rfl
      · exact absurd (hkey ▸ List.mem_map_of_mem (fun kp => kp.1) hkq') h.1
    · rcases List.mem_cons.mp hkq with rfl | hkq'
      · exact absurd (hkey ▸ List.mem_map_of_mem (fun kp => kp.1) hkp') h.1
      · exact ih h.2 kp hkp' kq hkq' hkey

/-- A `filterMap` over a duplicate-free list in which exactly one element is
kept produces exactly its image. -/
theorem filterMap_eq_single {α β : Type} (f : α → Option β)
    (l : List α) (hl : l.Nodup) (x : α) (bv : β) (hx : x ∈ l)
    (hfx : f x = some bv) (hother : ∀ y ∈ l, y ≠ x → f y = none) :
    l.filterMap f = [bv] := by
  induction l with
  | nil => exact absurd hx (List.not_mem_nil x)
  | cons a t ih =>
    rw [List.nodup_cons] at hl
    rcases List.mem_cons.mp hx with rfl | hx'
    · have ht : t.filterMap f = [] :=
        List.filterMap_eq_nil_iff.mpr (fun y hy =>
          hother y (List.mem_cons_of_mem _ hy) (fun hyx => hl.1 (hyx ▸ hy)))
      simp [List.filterMap_cons, hfx, ht]
    · have ha : f a = none :=
        hother a (List.mem_cons_self a t) (fun hax => hl.1 (hax ▸ hx'))
      simp only [List.filterMap_cons, ha]
      exact ih hl.2 hx' (fun y hy => hother y (List.mem_cons_of_mem _ hy))

/-- A `filterMap` keeping two distinct elements has length at least two. -/
theorem two_le_length_filterMap {α β : Type} (f : α → Option β)
    (l : List α) (x y : α) (hx : x ∈ l) (hy : y ∈ l) (hxy : x ≠ y)
    (bx bw : β) (hfx : f x = some bx) (hfy : f y = some bw) :
    2 ≤ (l.filterMap f).length := by
  induction l with
  | nil => exact absurd hx (List.not_mem_nil x)
  | cons a t ih =>
    rcases List.mem_cons.mp hx with rfl | hx'
    · have hy' : y ∈ t := (List.mem_cons.mp hy).resolve_left
        (fun h => hxy h.symm)
      have hmem : bw ∈ t.filterMap f := List.mem_filterMap.mpr ⟨y, hy', hfy⟩
      have hlen : 0 < (t.filterMap f).length :=
        List.length_pos.mpr (List.ne_nil_of_mem hmem)
      simp only [List.filterMap_cons, hfx, List.length_cons]
      exact Nat.succ_le_succ hlen
    · rcases List.mem_cons.mp hy with rfl | hy'
      · have hmem : bx ∈ t.filterMap f := List.mem_filterMap.mpr ⟨x, hx', hfx⟩
        have hlen : 0 < (t.filterMap f).length :=
          List.length_pos.mpr (List.ne_nil_of_mem hmem)
        simp only [List.filterMap_cons, hfy, List.length_cons]
        exact Nat.succ_le_succ hlen
      · have htail : 2 ≤ (t.filterMap f).length := ih hx' hy'
        cases hfa : f a with
        | none => simpa [List.filterMap_cons, hfa] using htail
        | some bz =>
          simp only [List.filterMap_cons, hfa, List.length_cons]
          exact Nat.le_succ_of_le htail

/-- The fresh key minted from the counting sequence is unused, and every
smaller candidate is used: it is the first unused candidate of
`itertools.count()`. -/
theorem fresh_key_spec (d : List Nat) :
    fresh_key d ∉ d ∧ ∀ m < fresh_key d, m ∈ d := by
  have hnone : find_unused_key d (List.range (d.length + 1)) ≠ none := by
    rw [find_unused_key]
    intro hn
    rw [List.find?_eq_none] at hn
    have hsub : Finset.range (d.length + 1) ⊆ d.toFinset := by
      intro a ha
      rw [Finset.mem_range] at ha
      have h1 := hn a (List.mem_range.mpr ha)
      rw [List.mem_toFinset]
      by_contra hmem
      exact h1 (decide_eq_true hmem)
    have h1 : d.length + 1 ≤ d.toFinset.card := by
      simpa using Finset.card_le_card hsub
    have h2 : d.toFinset.card ≤ d.length := d.toFinset_card_le
    omega
  obtain ⟨a, hfind⟩ := Option.ne_none_iff_exists'.mp hnone
  have hkey : fresh_key d = a := by
    rw [fresh_key, hfind]
    rfl
  rw [find_unused_key, List.find?_eq_some] at hfind
  obtain ⟨hpa, as, bs, hsplit, hpre⟩ := hfind
  have hlen : as.length < d.length + 1 := by
    have := congrArg List.length hsplit
    simp at this
    omega
  have hx : (List.range (d.length + 1))[as.length]? = some as.length :=
    List.getElem?_range hlen
  have hy : (List.range (d.length + 1))[as.length]? = some a := by
    rw [hsplit, List.getElem?_append_right (Nat.le_refl as.length)]
    simp
  obtain rfl : a = as.length := by
    rw [hx] at hy
    exact (Option.some.inj hy).symm
  have has : as = List.range as.length := by
    have h5 : (List.range (d.length + 1)).take as.length = as := by
      rw [hsplit]
      exact List.take_left as _
    rw [List.take_range, Nat.min_eq_left (Nat.le_of_lt hlen)] at h5
    exact h5.symm
  rw [hkey]
  constructor
  · exact of_decide_eq_true hpa
  · intro m hm
    have hmem : m ∈ as := by
      rw [has]
      exact List.mem_range.mpr hm
    have := hpre m hmem
    by_contra hmd
    rw [decide_eq_true hmd] at this
    exact absurd this (by simp)

/-- First components produced by the fresh-key loop: the leftover keys, in
order. -/
theorem kpFreshLoop_keys (l : List (Nat × Poly)) :
    ∀ F : List Nat, (kpFreshLoop F l).map (fun kv => kv.1) =
      l.map (fun kp => kp.1) := by
  induction l with
  | nil => intro F; rfl
  | cons kp rest ih =>
    intro F
    simp only [kpFreshLoop, List.map_cons, ih]

/-- Each value produced by the fresh-key loop avoids the initial forbidden
keys and every fresh key assigned before it, and is the smallest such
candidate. -/
theorem kpFreshLoop_spec (l : List (Nat × Poly)) :
    ∀ (F : List Nat) (i : Nat) (h : i < (kpFreshLoop F l).length),
      ((kpFreshLoop F l).get ⟨i, h⟩).2 ∉
        F ++ ((kpFreshLoop F l).take i).map (fun kv => kv.2) ∧
      ∀ m < ((kpFreshLoop F l).get ⟨i, h⟩).2,
        m ∈ F ++ ((kpFreshLoop F l).take i).map (fun kv => kv.2) := by
  induction l with
  | nil =>
    intro F i h
    exact absurd h (by simp [kpFreshLoop])
  | cons kp rest ih =>
    intro F i h
    cases i with
    | zero =>
      have hg : ((kpFreshLoop F (kp :: rest)).get ⟨0, h⟩).2 = fresh_key F := rfl
      have ht : (kpFreshLoop F (kp :: rest)).take 0 = [] := rfl
      rw [hg, ht]
      constructor
      · simpa using (fresh_key_spec F).1
      · intro m hm
        simpa using (fresh_key_spec F).2 m hm
    | succ n =>
      have h' : n < (kpFreshLoop (F ++ [fresh_key F]) rest).length := by
        simpa [kpFreshLoop] using h
      obtain ⟨h1, h2⟩ := ih (F ++ [fresh_key F]) n h'
      have hgood : F ++ ((kpFreshLoop F (kp :: rest)).take (n + 1)).map
          (fun kv => kv.2) =
          (F ++ [fresh_key F]) ++
            ((kpFreshLoop (F ++ [fresh_key F]) rest).take n).map
              (fun kv => kv.2) := by
        simp only [kpFreshLoop, List.take_succ_cons, List.map_cons,
          List.append_assoc, List.singleton_append]
      have hget : ((kpFreshLoop F (kp :: rest)).get ⟨n + 1, h⟩).2 =
          ((kpFreshLoop (F ++ [fresh_key F]) rest).get ⟨n, h'⟩).2 := rfl
      rw [hget, hgood]
      exact ⟨h1, h2⟩

/-- Turning a successful `Except` test into a witness. -/
theorem exists_ok_of_isOk {e : Except CodeErr Nat} (h : e.isOk = true) :
    ∃ c, e = .ok c := by
  cases e with
  | ok c => exact ⟨c, rfl⟩
  | error e' => exact absurd h (by simp [Except.isOk, Except.toBool])

/-- The matching pass of `keys_permutation` succeeds when `other.code`
succeeds on every shared atom; it pairs every shared key with `other`'s code
and hands the leftover entries, in order, to the fresh-key pass. -/
theorem kpMatchLoop_spec (other : PPart) (l : List (Nat × Poly))
    (hcode : ∀ kp ∈ l, other.mem kp.2 = true →
      (other.code kp.2).isOk = true) :
    ∃ dm, kpMatchLoop other l =
        .ok (dm, l.filter (fun kp => !(other.mem kp.2))) ∧
      ∀ kp ∈ l, other.mem kp.2 = true →
        ∀ c, other.code kp.2 = .ok c → (kp.1, c) ∈ dm := by
  induction l with
  | nil => exact ⟨[], rfl, by simp⟩
  | cons kp rest ih =>
    obtain ⟨dm, hok, hmem⟩ :=
      ih (fun kq hkq => hcode kq (List.mem_cons_of_mem _ hkq))
    by_cases hm : other.mem kp.2 = true
    · obtain ⟨c, hc⟩ :=
        exists_ok_of_isOk (hcode kp (List.mem_cons_self _ _) hm)
      refine ⟨(kp.1, c) :: dm, ?_, ?_⟩
      · have hfil : (kp :: rest).filter (fun kq => !(other.mem kq.2)) =
            rest.filter (fun kq => !(other.mem kq.2)) := by
          simp [List.filter_cons, hm]
        rw [hfil]
        simp only [kpMatchLoop, hm, if_true, hc, hok]
      · intro kq hkq hmq c' hc'
        rcases List.mem_cons.mp hkq with rfl | hkq'
        · rw [hc] at hc'
          obtain rfl := Except.ok.inj hc'
          exact List.mem_cons_self _ _
        · exact List.mem_cons_of_mem _ (hmem kq hkq' hmq c' hc')
    · have hm' : other.mem kp.2 = false := by
        revert hm
        cases other.mem kp.2 <;> simp
      refine ⟨dm, ?_, ?_⟩
      · have hfil : (kp :: rest).filter (fun kq => !(other.mem kq.2)) =
            kp :: rest.filter (fun kq => !(other.mem kq.2)) := by
          simp [List.filter_cons, hm']
        rw [hfil]
        simp only [kpMatchLoop, hm', hok]
        rfl
      · intro kq hkq hmq c' hc'
        rcases List.mem_cons.mp hkq with rfl | hkq'
        · exact absurd hmq hm
        · exact hmem kq hkq' hmq c' hc'

/-! Claim theorems. -/

/-- C1: for the 4-atom partition of the unit square and the translation
`rotation_mod(0, 1/3, 1, QQ)`, `induced_out_partition` against the
half-space `x0 <= 1/3` (inequality `[1/3, -1, 0]`) returns a mapping whose
only key is the return time 3, and the partition stored there has exactly 4
atoms. -/
theorem claim_C1 :
    (P4.induced_out_partition u13 hThird (-1) 0 6).map
      (fun l => l.map (fun x => (x.1, x.2.atoms.length))) =
      .ok [(3, 4)] := by
  rfl

/-- C6: `induced_out_partition` raises `ValueError` as soon as the
refinement of the partition by the half-space of `ieq` is empty, producing
no partial result. -/
theorem claim_C6 (P : PPart) (trans : Poly → Poly) (t a b : Q) (fuel : Nat)
    (h : (P.refinement (mkFromList [Poly.halfplane t a b])).atoms = []) :
    P.induced_out_partition trans t a b fuel = .error (.emptyIneq t a b) := by
  unfold PPart.induced_out_partition
  simp [h]

/-- Witness for C6: the documented inequality `[-1/2, -1, 0]` (the half-space
`x0 <= -1/2`) misses the 4-atom partition of the unit square, and the call
fails with the `ValueError`. -/
theorem claim_C6_witness :
    (P4.refinement (mkFromList [Poly.halfplane (-hHalf) (-1) 0])).atoms = [] ∧
    P4.induced_out_partition u13 (-hHalf) (-1) 0 6 =
      .error (.emptyIneq (-hHalf) (-1) 0) :=
  ⟨by decide, claim_C6 P4 u13 (-hHalf) (-1) 0 6 (by decide)⟩

/-- C8: constructing from a plain list assigns the dense integer keys
`0..n-1` in order, constructing from a dict keeps the given keys, and any
other input raises `TypeError`. -/
theorem claim_C8 :
    (∀ L base_ring, ∃ P, PolyhedronPartition (.ofList L) base_ring = .ok P ∧
      P.keys = List.range L.length ∧ P.values = L) ∧
    (∀ d base_ring, ∃ P, PolyhedronPartition (.ofDict d) base_ring = .ok P ∧
      P.atoms = d) ∧
    (∀ base_ring, PolyhedronPartition .otherValue base_ring =
      .error .typeErr) := by
  refine ⟨fun L br => ⟨_, rfl, ?_, ?_⟩, fun d br => ⟨_, rfl, rfl⟩,
    fun br => rfl⟩
  · exact List.enum_map_fst L
  · exact List.enum_map_snd L

/-- Counterexample to C9: constructing the empty partition without a base
ring does not fail; it succeeds (the source line `base_ring == ZZ` is a
comparison whose value is discarded, so no error is raised). -/
theorem claim_C9_counterexample :
    PolyhedronPartition (.ofList []) none = .ok ⟨[], none⟩ := rfl

/-- C9 (amended): constructing an empty partition without an explicit base
ring succeeds and returns a partition whose base ring is `None`; no default
base ring is assigned, because the intended assignment is written as the
no-effect comparison `base_ring == ZZ`. -/
theorem claim_C9_amended :
    ∃ P, PolyhedronPartition (.ofList []) none = .ok P ∧ P.atoms = [] ∧
      P.ring = none :=
  ⟨⟨[], none⟩, rfl, rfl, rfl⟩

/-- C10: when the transformation preserves the volume of every atom,
`apply_transformation` succeeds and returns the partition whose association
list is the original one with every atom replaced by its image under the
same key — keys are neither renamed, dropped nor added (and the original
partition, a pure value, is untouched). -/
theorem claim_C10 (P : PPart) (trans : Poly → Poly)
    (h : ∀ kp ∈ P.atoms, (trans kp.2).volume = kp.2.volume) :
    ∃ Q', P.apply_transformation trans = some Q' ∧
      Q'.keys = P.keys ∧
      Q'.atoms = P.atoms.map (fun kp => (kp.1, trans kp.2)) := by
  have hall : (P.atoms.all (fun kp =>
      decide ((trans kp.2).volume = kp.2.volume))) = true := by
    rw [List.all_eq_true]
    intro kp hkp
    exact decide_eq_true (h kp hkp)
  refine ⟨mkFromDict (P.atoms.map (fun kp => (kp.1, trans kp.2))), ?_, ?_, ?_⟩
  · unfold PPart.apply_transformation
    rw [hall]
    rfl
  · show (P.atoms.map (fun kp => (kp.1, trans kp.2))).map (fun kp => kp.1) =
      P.keys
    rw [List.map_map]
    rfl
  · rfl

/-- C2: for a volume-preserving transformation supplied with its two-sided
inverse (on the atoms of the partition), applying the transformation and
then the inverse gives back a partition equal to the original one, where
partition equality compares the sets of atoms and ignores keys. -/
theorem claim_C2 (P : PPart) (f f_inv : Poly → Poly)
    (hvol : ∀ kp ∈ P.atoms, (f kp.2).volume = kp.2.volume)
    (hinv : ∀ kp ∈ P.atoms, Poly.eqv (f_inv (f kp.2)) kp.2 = true)
    (hvol_inv : ∀ kp ∈ P.atoms, (f_inv (f kp.2)).volume = kp.2.volume) :
    ∃ Q1 Q2, P.apply_transformation f = some Q1 ∧
      Q1.apply_transformation f_inv = some Q2 ∧ Q2.eqP P = true := by
  have hall1 : (P.atoms.all (fun kp =>
      decide ((f kp.2).volume = kp.2.volume))) = true := by
    rw [List.all_eq_true]
    intro kp hkp
    exact decide_eq_true (hvol kp hkp)
  refine ⟨mkFromDict (P.atoms.map (fun kp => (kp.1, f kp.2))),
    mkFromDict ((P.atoms.map (fun kp => (kp.1, f kp.2))).map
      (fun kp => (kp.1, f_inv kp.2))), ?_, ?_, ?_⟩
  · unfold PPart.apply_transformation
    rw [hall1]
    rfl
  · unfold PPart.apply_transformation
    have hall2 : ((mkFromDict (P.atoms.map (fun kp => (kp.1, f kp.2)))).atoms.all
        (fun kp => decide ((f_inv kp.2).volume = kp.2.volume))) = true := by
      rw [List.all_eq_true]
      intro kq hkq
      have hkq' : kq ∈ P.atoms.map (fun kp => (kp.1, f kp.2)) := hkq
      rw [List.mem_map] at hkq'
      obtain ⟨kp, hkp, rfl⟩ := hkq'
      exact decide_eq_true (by rw [hvol_inv kp hkp, hvol kp hkp])
    rw [hall2]
    rfl
  · unfold PPart.eqP
    rw [Bool.and_eq_true, List.all_eq_true, List.all_eq_true]
    constructor
    · intro x hx
      have hx' : x ∈ ((P.atoms.map (fun kp => (kp.1, f kp.2))).map
          (fun kp => (kp.1, f_inv kp.2))).map (fun kp => kp.2) := hx
      rw [List.map_map, List.map_map, List.mem_map] at hx'
      obtain ⟨kp, hkp, rfl⟩ := hx'
      exact PPart.mem_of_eqv kp.2 (mem_values hkp) (hinv kp hkp)
    · intro q hq
      have hq' : q ∈ P.atoms.map (fun kp => kp.2) := hq
      rw [List.mem_map] at hq'
      obtain ⟨kp, hkp, rfl⟩ := hq'
      refine PPart.mem_of_eqv (f_inv (f kp.2)) ?_ ?_
      · exact List.mem_map_of_mem _ (List.mem_map_of_mem _
          (List.mem_map_of_mem _ hkp))
      · rw [Poly.eqv_symm]
        exact hinv kp hkp

/-- C5: `is_pairwise_disjoint()` returns `True` precisely when every pair of
atoms with distinct keys meets with zero volume, never returns `False`, and
otherwise raises an error naming two offending distinct keys, their vertex
sets and their positive intersection volume. (The hypothesis records the
black-box geometric fact that volumes are nonnegative.) -/
theorem claim_C5 (P : PPart)
    (hnn : ∀ i ∈ P.keys, ∀ j ∈ P.keys,
      0 < ((P.getAtom i).intersection (P.getAtom j)).volume ∨
      ((P.getAtom i).intersection (P.getAtom j)).volume = 0) :
    (P.is_pairwise_disjoint = .ok true ↔
      ∀ i ∈ P.keys, ∀ j ∈ P.keys, i ≠ j →
        ((P.getAtom i).intersection (P.getAtom j)).volume = 0) ∧
    (∀ br, P.is_pairwise_disjoint = .ok br → br = true) ∧
    (∀ e, P.is_pairwise_disjoint = .error e →
      e.i ∈ P.keys ∧ e.j ∈ P.keys ∧ e.j ≠ e.i ∧
      e.vi = (P.getAtom e.i).verts ∧ e.vj = (P.getAtom e.j).verts ∧
      e.vol = ((P.getAtom e.i).intersection (P.getAtom e.j)).volume ∧
      0 < e.vol) := by
  refine ⟨?_, ?_, ?_⟩
  · rw [PPart.is_pairwise_disjoint, disjLoop_ok_iff]
    constructor
    · intro h i hi j hj hij
      have := h (i, j) (mem_keyPairs.mpr ⟨hi, hj, Ne.symm hij⟩)
      rcases hnn i hi j hj with hpos | hzero
      · exact absurd hpos this
      · exact hzero
    · intro h ij hij
      obtain ⟨i, j⟩ := ij
      obtain ⟨hi, hj, hne⟩ := mem_keyPairs.mp hij
      rw [h i hi j hj (Ne.symm hne)]
      decide
  · intro br h
    exact disjLoop_ok_true P _ br h
  · intro e h
    obtain ⟨hmem, h1, h2, h3, h4⟩ := disjLoop_error P _ e h
    obtain ⟨hi, hj, hne⟩ := mem_keyPairs.mp hmem
    exact ⟨hi, hj, hne, h1, h2, h3, h4⟩

/-- The values of a partition rebuilt from a plain list are that list. -/
theorem mkFromList_values (L : List Poly) : (mkFromList L).values = L :=
  List.enum_map_snd L

/-- Counterexample to C3: for the partition made of two overlapping unit
squares, `refinement(P, P)` is not equal to `P` (the refinement contains
the overlap rectangle, which is none of the original atoms). -/
theorem claim_C3_counterexample :
    (Pover.refinement Pover).eqP Pover = false := by
  decide

/-- C3 (amended): for every partition with distinct, pairwise-disjoint keys
whose atoms each have positive self-intersection volume and satisfy
`p.intersection(p) == p` (both true of any positive-volume convex polytope),
the refinement of the partition with itself is equal to the partition, under
atom-set equality ignoring keys. -/
theorem claim_C3_amended (P : PPart)
    (hnd : (P.atoms.map (fun kp => kp.1)).Nodup)
    (hdisj : ∀ kp ∈ P.atoms, ∀ kq ∈ P.atoms, kp.1 ≠ kq.1 →
      ¬ 0 < (kp.2.intersection kq.2).volume)
    (hself_pos : ∀ kp ∈ P.atoms, 0 < (kp.2.intersection kp.2).volume)
    (hself_eqv : ∀ kp ∈ P.atoms,
      Poly.eqv (kp.2.intersection kp.2) kp.2 = true) :
    (P.refinement P).eqP P = true := by
  have hvals : (P.refinement P).values =
      (P.values.flatMap (fun p => P.values.map (fun q => (p, q)))).filterMap
        (fun pq =>
          if 0 < (pq.1.intersection pq.2).volume then
            some (pq.1.intersection pq.2) else none) :=
    mkFromList_values _
  unfold PPart.eqP
  rw [Bool.and_eq_true, List.all_eq_true, List.all_eq_true]
  constructor
  · intro x hx
    rw [hvals, List.mem_filterMap] at hx
    obtain ⟨pq, hpq, hsome⟩ := hx
    rw [List.mem_flatMap] at hpq
    obtain ⟨p, hp, hpq'⟩ := hpq
    rw [List.mem_map] at hpq'
    obtain ⟨q, hq, rfl⟩ := hpq'
    have hp' : p ∈ P.atoms.map (fun kp => kp.2) := hp
    have hq' : q ∈ P.atoms.map (fun kp => kp.2) := hq
    rw [List.mem_map] at hp' hq'
    obtain ⟨kp, hkp, rfl⟩ := hp'
    obtain ⟨kq, hkq, rfl⟩ := hq'
    by_cases hc : 0 < (kp.2.intersection kq.2).volume
    · rw [if_pos hc] at hsome
      obtain rfl := Option.some.inj hsome
      by_cases hkey : kp.1 = kq.1
      · obtain rfl := entry_eq_of_key_eq hnd kp hkp kq hkq hkey
        exact PPart.mem_of_eqv kp.2 (mem_values hkp) (hself_eqv kp hkp)
      · exact absurd hc (hdisj kp hkp kq hkq hkey)
    · rw [if_neg hc] at hsome
      exact Option.noConfusion hsome
  · intro q hq
    have hq' : q ∈ P.atoms.map (fun kp => kp.2) := hq
    rw [List.mem_map] at hq'
    obtain ⟨kp, hkp, rfl⟩ := hq'
    refine PPart.mem_of_eqv (kp.2.intersection kp.2) ?_ ?_
    · rw [hvals, List.mem_filterMap]
      refine ⟨(kp.2, kp.2), ?_, ?_⟩
      · rw [List.mem_flatMap]
        exact ⟨kp.2, mem_values hkp, List.mem_map_of_mem _ (mem_values hkp)⟩
      · rw [if_pos (hself_pos kp hkp)]
    · rw [Poly.eqv_symm]
      exact hself_eqv kp hkp

/-- C7: when `other.code` succeeds on every atom shared with `other` (the
unambiguous-containment condition), `keys_permutation(other)` returns the
matched entries followed by the fresh entries: every key of a shared atom is
sent to `other`'s key for that atom; the leftover keys are exactly the keys
of the atoms absent from `other`, in order; and each of their fresh values
avoids `other`'s keys and all previously assigned fresh values, being the
first such candidate of the counting sequence `0, 1, 2, ...`. -/
theorem claim_C7 (P other : PPart)
    (hcode : ∀ kp ∈ P.atoms, other.mem kp.2 = true →
      (other.code kp.2).isOk = true) :
    ∃ dm fr, P.keys_permutation other = .ok (dm ++ fr) ∧
      (∀ kp ∈ P.atoms, other.mem kp.2 = true →
        ∀ c, other.code kp.2 = .ok c → (kp.1, c) ∈ dm) ∧
      fr.map (fun kv => kv.1) =
        (P.atoms.filter (fun kp => !(other.mem kp.2))).map (fun kp => kp.1) ∧
      (∀ i (h : i < fr.length),
        (fr.get ⟨i, h⟩).2 ∉
          other.keys ++ ((fr.take i).map (fun kv => kv.2)) ∧
        ∀ m < (fr.get ⟨i, h⟩).2,
          m ∈ other.keys ++ ((fr.take i).map (fun kv => kv.2))) := by
  obtain ⟨dm, hok, hmem⟩ := kpMatchLoop_spec other P.atoms hcode
  refine ⟨dm, kpFreshLoop other.keys
    (P.atoms.filter (fun kp => !(other.mem kp.2))), ?_, hmem, ?_, ?_⟩
  · rw [PPart.keys_permutation, hok]
  · exact kpFreshLoop_keys _ other.keys
  · exact kpFreshLoop_spec _ other.keys

/-- Witness for C7: the docstring example with `P = {4:p, 1:q, 2:r}` and
`other = {0:p, 5:q}` sharing the atoms `p` and `q`: the computed renaming is
`{4:0, 1:5, 2:1}`, so the shared keys 4 and 1 take `other`'s keys 0 and 5,
and the absent key 2 takes the first unused fresh key 1. -/
theorem claim_C7_witness :
    (∀ kp ∈ PB.atoms, QB.mem kp.2 = true → (QB.code kp.2).isOk = true) ∧
    PB.keys_permutation QB = .ok [(4, 0), (1, 5), (2, 1)] ∧
    (∃ dm fr, PB.keys_permutation QB = .ok (dm ++ fr) ∧
      (∀ kp ∈ PB.atoms, QB.mem kp.2 = true →
        ∀ c, QB.code kp.2 = .ok c → (kp.1, c) ∈ dm) ∧
      fr.map (fun kv => kv.1) =
        (PB.atoms.filter (fun kp => !(QB.mem kp.2))).map (fun kp => kp.1) ∧
      (∀ i (h : i < fr.length),
        (fr.get ⟨i, h⟩).2 ∉
          QB.keys ++ ((fr.take i).map (fun kv => kv.2)) ∧
        ∀ m < (fr.get ⟨i, h⟩).2,
          m ∈ QB.keys ++ ((fr.take i).map (fun kv => kv.2)))) :=
  ⟨by decide, by decide, claim_C7 PB QB (by decide)⟩

/-- Witness for C3 (amended): the documented 4-atom partition satisfies the
disjointness and self-intersection hypotheses, and its refinement with
itself equals it. -/
theorem claim_C3_witness :
    (∀ kp ∈ P4.atoms, ∀ kq ∈ P4.atoms, kp.1 ≠ kq.1 →
      ¬ 0 < (kp.2.intersection kq.2).volume) ∧
    (P4.refinement P4).eqP P4 = true :=
  ⟨by decide, claim_C3_amended P4 (by decide) (by decide) (by decide)
    (by decide)⟩

/-- Counterexample to C4: in the pairwise-disjoint partition made of the
unit square and a zero-volume segment lying inside it, `code` applied to the
segment atom does not return the atom's own key (it raises, since the
segment is contained in both atoms). -/
theorem claim_C4_counterexample :
    Pdeg.is_pairwise_disjoint = .ok true ∧ (1, segAtom) ∈ Pdeg.atoms ∧
    Pdeg.code segAtom ≠ .ok 1 :=
  ⟨by decide, by decide, by decide⟩

/-- C4 (amended): `code(p)` returns the unique key whose atom contains `p`
when exactly one exists, raises when no atom or more than one atom contains
`p`; and for every atom of a pairwise-disjoint partition all of whose atoms
have positive volume, `code` returns the atom's own key (the last two
hypotheses of the final part record the black-box geometric facts that a
polytope contains itself and that containment forces the intersection to
carry the full volume). -/
theorem claim_C4_amended (P : PPart)
    (hnd : (P.atoms.map (fun kp => kp.1)).Nodup) :
    (∀ p kp, kp ∈ P.atoms → p.subsetOf kp.2 = true →
      (∀ kq ∈ P.atoms, p.subsetOf kq.2 = true → kq = kp) →
      P.code p = .ok kp.1) ∧
    (∀ p, (∀ kp ∈ P.atoms, p.subsetOf kp.2 = false) →
      P.code p = .error (.noAtom p.verts)) ∧
    (∀ p kp kq, kp ∈ P.atoms → kq ∈ P.atoms → kp ≠ kq →
      p.subsetOf kp.2 = true → p.subsetOf kq.2 = true →
      ∃ L, P.code p = .error (.multiAtom p.verts L)) ∧
    ((∀ kp ∈ P.atoms, 0 < kp.2.volume) →
     (∀ kp ∈ P.atoms, ∀ kq ∈ P.atoms, kp.1 ≠ kq.1 →
        ¬ 0 < (kp.2.intersection kq.2).volume) →
     (∀ kp ∈ P.atoms, kp.2.subsetOf kp.2 = true) →
     (∀ kp ∈ P.atoms, ∀ kq ∈ P.atoms, kp.2.subsetOf kq.2 = true →
        (kp.2.intersection kq.2).volume = kp.2.volume) →
     ∀ kp ∈ P.atoms, P.code kp.2 = .ok kp.1) := by
  have hone : ∀ p kp, kp ∈ P.atoms → p.subsetOf kp.2 = true →
      (∀ kq ∈ P.atoms, p.subsetOf kq.2 = true → kq = kp) →
      P.code p = .ok kp.1 := by
    intro p kp hkp hsub huniq
    have hL : P.atoms.filterMap
        (fun kq => if p.subsetOf kq.2 = true then some kq.1 else none) =
        [kp.1] := by
      refine filterMap_eq_single _ _ (List.Nodup.of_map _ hnd) kp kp.1 hkp
        (if_pos hsub) ?_
      intro kq hkq hne
      by_cases hs : p.subsetOf kq.2 = true
      · exact absurd (huniq kq hkq hs) hne
      · exact if_neg hs
    simp only [PPart.code]
    rw [hL]
  refine ⟨hone, ?_, ?_, ?_⟩
  · intro p hall
    have hL : P.atoms.filterMap
        (fun kq => if p.subsetOf kq.2 = true then some kq.1 else none) =
        [] := by
      refine List.filterMap_eq_nil_iff.mpr ?_
      intro kq hkq
      simp [hall kq hkq]
    simp only [PPart.code]
    rw [hL]
  · intro p kp kq hkp hkq hne hskp hskq
    have hlen : 2 ≤ (P.atoms.filterMap
        (fun kr => if p.subsetOf kr.2 = true then some kr.1 else none)).length :=
      two_le_length_filterMap _ _ kp kq hkp hkq hne kp.1 kq.1
        (if_pos hskp) (if_pos hskq)
    rcases hL : P.atoms.filterMap
        (fun kr => if p.subsetOf kr.2 = true then some kr.1 else none) with
      _ | ⟨c1, _ | ⟨c2, rest⟩⟩
    · rw [hL] at hlen
      exact absurd hlen (by simp)
    · rw [hL] at hlen
      exact absurd hlen (by simp)
    · refine ⟨c1 :: c2 :: rest, ?_⟩
      simp only [PPart.code]
      rw [hL]
  · intro hpos hdisj hself hlaw kp hkp
    refine hone kp.2 kp hkp (hself kp hkp) ?_
    intro kq hkq hs
    by_cases hkey : kp.1 = kq.1
    · exact entry_eq_of_key_eq hnd kq hkq kp hkp hkey.symm
    · exfalso
      refine hdisj kp hkp kq hkq hkey ?_
      rw [hlaw kp hkp kq hkq hs]
      exact hpos kp hkp

/-- Witness for C4: the documented 4-atom partition has distinct keys, and
`code` maps every atom to its own key. -/
theorem claim_C4_witness :
    (P4.atoms.map (fun kp => kp.1)).Nodup ∧
    (∀ kp ∈ P4.atoms, P4.code kp.2 = .ok kp.1) :=
  ⟨by decide, (claim_C4_amended P4 (by decide)).2.2.2
    (by decide) (by decide) (by decide) (by decide)⟩

/-- Witness for C5: for the documented 4-atom partition of the unit square,
all intersection volumes are nonnegative, the call returns `True`, and every
pair of atoms with distinct keys indeed meets with zero volume. -/
theorem claim_C5_witness :
    (∀ i ∈ P4.keys, ∀ j ∈ P4.keys,
      0 < ((P4.getAtom i).intersection (P4.getAtom j)).volume ∨
      ((P4.getAtom i).intersection (P4.getAtom j)).volume = 0) ∧
    (P4.is_pairwise_disjoint = .ok true ↔
      ∀ i ∈ P4.keys, ∀ j ∈ P4.keys, i ≠ j →
        ((P4.getAtom i).intersection (P4.getAtom j)).volume = 0) :=
  ⟨by decide, (claim_C5 P4 (by decide)).1⟩

/-- Witness for C2: the documented rational rotations `u = rotation_mod(0,
1/3, 1, QQ)` and `u_inv = rotation_mod(0, 2/3, 1, QQ)` are mutually inverse
and volume-preserving on the 4-atom partition, and the round trip returns a
partition equal to it. -/
theorem claim_C2_witness :
    (∀ kp ∈ P4.atoms, (u13 kp.2).volume = kp.2.volume) ∧
    (∀ kp ∈ P4.atoms, Poly.eqv (u23 (u13 kp.2)) kp.2 = true) ∧
    ∃ Q1 Q2, P4.apply_transformation u13 = some Q1 ∧
      Q1.apply_transformation u23 = some Q2 ∧ Q2.eqP P4 = true :=
  ⟨by decide, by decide, claim_C2 P4 u13 u23 (by decide) (by decide) (by decide)⟩

/-- Witness for C10: the rotation `u13` preserves the volume of every atom
of the documented 4-atom partition, and `apply_transformation` keeps its
keys and transforms its atoms in place. -/
theorem claim_C10_witness :
    (∀ kp ∈ P4.atoms, (u13 kp.2).volume = kp.2.volume) ∧
    ∃ Q', P4.apply_transformation u13 = some Q' ∧
      Q'.keys = P4.keys ∧
      Q'.atoms = P4.atoms.map (fun kp => (kp.1, u13 kp.2)) :=
  ⟨by decide, claim_C10 P4 u13 (by decide)⟩

end Slabbe
